import Mathlib

/-!
# Eel tracking: association, confirmation, creation and pruning of tracks

A shallow embedding of the per-frame tracking loop of `eel_tracking.cpp`
(`main`, lines 64-69 and 104-183) and theorems about it.

Modelling conventions.

* The image-processing front end (lines 77-102) is an input: each frame is given
  by the list `currentCenters` of the centres it produced and by the timestamp
  read from the capture.  Drawing calls have no effect on the tracking state and
  are left out.
* Coordinates are exact rationals.  A distance `norm(a - b)` is represented by its
  square `normSq a b`; for the non-negative quantities compared in the source,
  `d < r` holds exactly when `0 < r` and `d * d < r * r`, which is what `distLt`
  tests.  `minDist` therefore holds the square of the source variable, and its
  initial value `1e9` becomes `10 ^ 18`.
* `int` variables are unbounded integers.
* `bestIdx = -1` is `none`.
-/

namespace EelTracking

/-! ## Data model -/

/-- A point with two coordinates (`cv::Point2f`). -/
structure Point2f where
  x : ℚ
  y : ℚ
deriving DecidableEq

/-- The `Track` structure of the source (lines 21-27). -/
structure Track where
  id : Int
  position : Point2f
  framesTracked : Int
  lastFrameSeen : Int
  eel_detected : Bool
deriving DecidableEq

/-- One data line written to the CSV file (line 160):
`frame,timestamp_sec,track_id,x,y`. -/
structure CsvRow where
  frame : Int
  timestamp_sec : ℚ
  track_id : Int
  x : ℚ
  y : ℚ
deriving DecidableEq

/-- What one iteration of the `while` loop reads from outside the tracker: the
centres extracted from the frame (lines 89-102) and `CAP_PROP_POS_MSEC / 1000`. -/
structure FrameInput where
  currentCenters : List Point2f
  timestamp : ℚ
deriving DecidableEq

/-- The variables that live across iterations of the `while` loop
(lines 55-69): the track list, the counters and the CSV data lines written so far. -/
structure State where
  tracks : List Track
  nextTrackID : Int
  eelNumber : Int
  currentFrame : Int
  csv_file : List CsvRow
deriving DecidableEq

/-- The variables threaded through the association loop (lines 105-164) besides
the tracks themselves. -/
structure LoopState where
  assigned : List Bool
  eelNumber : Int
  csv_file : List CsvRow
deriving DecidableEq

/-! ## Constants (lines 17-19) -/

/-- Minimum distance to consider motion. -/
def MIN_MOTION_DISTANCE : ℚ := 2

/-- Frames before confirming a track as an eel. -/
def MIN_FRAMES_EEL : Int := 5

/-- Frames before deleting a track. -/
def MAX_FRAMES_MISSED : Int := 50

/-- Square of the initial value `1e9` of `minDist` (line 107). -/
def initMinDistSq : ℚ := 1000000000 * 1000000000

/-! ## Distances -/

/-- Square of `norm(a - b)` (line 111). -/
def normSq (a b : Point2f) : ℚ :=
  (a.x - b.x) * (a.x - b.x) + (a.y - b.y) * (a.y - b.y)

/-- The test `d < r` for a distance `d` given by its square `dSq`. -/
def distLt (dSq r : ℚ) : Bool :=
  decide (0 < r) && decide (dSq < r * r)

/-! ## Nearest unassigned centre (lines 107-116) -/

/-- The inner `for` loop over the centres, from index `i` on, with the current
`(minDist, bestIdx)`. -/
def nearestLoop (position : Point2f) (assigned : List Bool) :
    List Point2f → Nat → ℚ × Option Nat → ℚ × Option Nat
  | [], _, acc => acc
  | c :: rest, i, (minDist, bestIdx) =>
    if assigned.getD i false then
      nearestLoop position assigned rest (i + 1) (minDist, bestIdx)
    else if normSq position c < minDist then
      nearestLoop position assigned rest (i + 1) (normSq position c, some i)
    else
      nearestLoop position assigned rest (i + 1) (minDist, bestIdx)

/-- The pair `(minDist, bestIdx)` after the inner loop. -/
def nearest (position : Point2f) (currentCenters : List Point2f) (assigned : List Bool) :
    ℚ × Option Nat :=
  nearestLoop position assigned currentCenters 0 (initMinDistSq, none)

/-! ## One track of the association loop (lines 106-164) -/

/-- The body of `for (auto& track : tracks)`: the track and the loop variables
after the body has run for `track`. -/
def updateTrack (frameWidth : ℚ) (currentFrame : Int) (timestamp : ℚ)
    (currentCenters : List Point2f) (track : Track) (st : LoopState) : Track × LoopState :=
  match nearest track.position currentCenters st.assigned with
  | (_, none) => (track, st)
  | (minDist, some bestIdx) =>
    if distLt minDist (frameWidth / 4) then
      if distLt minDist MIN_MOTION_DISTANCE then
        (track, { st with assigned := st.assigned.set bestIdx true })
      else
        let moved : Track :=
          { track with
            position := currentCenters.getD bestIdx track.position
            lastFrameSeen := currentFrame
            framesTracked := track.framesTracked + 1 }
        let assigned1 := st.assigned.set bestIdx true
        if decide (moved.framesTracked > MIN_FRAMES_EEL) || moved.eel_detected then
          let row : CsvRow :=
            { frame := currentFrame, timestamp_sec := timestamp, track_id := moved.id
              x := moved.position.x, y := moved.position.y }
          if !moved.eel_detected then
            ({ moved with eel_detected := true },
              { assigned := assigned1, eelNumber := st.eelNumber + 1
                csv_file := st.csv_file ++ [row] })
          else
            (moved, { assigned := assigned1, eelNumber := st.eelNumber
                      csv_file := st.csv_file ++ [row] })
        else
          (moved, { st with assigned := assigned1 })
    else
      (track, st)

/-- The association loop over the tracks, in list order. -/
def associate (frameWidth : ℚ) (currentFrame : Int) (timestamp : ℚ)
    (currentCenters : List Point2f) : List Track → LoopState → List Track × LoopState
  | [], st => ([], st)
  | track :: rest, st =>
    let r := updateTrack frameWidth currentFrame timestamp currentCenters track st
    let rs := associate frameWidth currentFrame timestamp currentCenters rest r.2
    (r.1 :: rs.1, rs.2)

/-! ## Track creation (lines 166-180) -/

/-- The creation loop from index `i` on: the tracks pushed and `nextTrackID`
afterwards. -/
def createTracks (currentFrame : Int) (assigned : List Bool) :
    List Point2f → Nat → Int → List Track × Int
  | [], _, nextTrackID => ([], nextTrackID)
  | c :: rest, i, nextTrackID =>
    if !assigned.getD i false then
      let newTrack : Track :=
        { id := nextTrackID, position := c, lastFrameSeen := currentFrame
          framesTracked := 1, eel_detected := false }
      let rs := createTracks currentFrame assigned rest (i + 1) (nextTrackID + 1)
      (newTrack :: rs.1, rs.2)
    else
      createTracks currentFrame assigned rest (i + 1) nextTrackID

/-! ## Pruning (line 183) -/

/-- The predicate of `remove_if`. -/
def isOld (currentFrame : Int) (t : Track) : Bool :=
  decide (currentFrame - t.lastFrameSeen > MAX_FRAMES_MISSED)

/-- The erase-remove of old tracks. -/
def pruneTracks (currentFrame : Int) (tracks : List Track) : List Track :=
  tracks.filter (fun t => !isOld currentFrame t)

/-! ## One frame and a whole run -/

/-- The state before the first frame (lines 64-69). -/
def initState : State :=
  { tracks := [], nextTrackID := 1, eelNumber := 0, currentFrame := 0, csv_file := [] }

/-- The loop variables at the start of the association loop of a frame (line 105). -/
def loopStart (s : State) (f : FrameInput) : LoopState :=
  { assigned := List.replicate f.currentCenters.length false
    eelNumber := s.eelNumber, csv_file := s.csv_file }

/-- The association phase of a frame. -/
def associateFrame (frameWidth : ℚ) (s : State) (f : FrameInput) : List Track × LoopState :=
  associate frameWidth (s.currentFrame + 1) f.timestamp f.currentCenters s.tracks (loopStart s f)

/-- The creation phase of a frame. -/
def createFrame (frameWidth : ℚ) (s : State) (f : FrameInput) : List Track × Int :=
  createTracks (s.currentFrame + 1) (associateFrame frameWidth s f).2.assigned
    f.currentCenters 0 s.nextTrackID

/-- One iteration of the `while` loop (lines 75-183). -/
def step (frameWidth : ℚ) (s : State) (f : FrameInput) : State :=
  let a := associateFrame frameWidth s f
  let c := createFrame frameWidth s f
  { tracks := pruneTracks (s.currentFrame + 1) (a.1 ++ c.1)
    nextTrackID := c.2
    eelNumber := a.2.eelNumber
    currentFrame := s.currentFrame + 1
    csv_file := a.2.csv_file }

/-- The state after the frames `fs`, starting from `s`. -/
def runFrom (frameWidth : ℚ) (s : State) (fs : List FrameInput) : State :=
  fs.foldl (step frameWidth) s

/-- The state after the frames `fs`, starting from the initial state. -/
def run (frameWidth : ℚ) (fs : List FrameInput) : State :=
  runFrom frameWidth initState fs

/-! ## Observations used in the statements -/

/-- The loop variables when the association loop of a frame reaches the track of
index `k`, that is after the body has run for the first `k` tracks. -/
def loopStateAt (frameWidth : ℚ) (s : State) (f : FrameInput) (k : Nat) : LoopState :=
  (associate frameWidth (s.currentFrame + 1) f.timestamp f.currentCenters
    (s.tracks.take k) (loopStart s f)).2

/-- The record of a track after an update with motion towards the centre `c`
(lines 124-137). -/
def movedTrack (currentFrame : Int) (c : Point2f) (t : Track) : Track :=
  { id := t.id, position := c, framesTracked := t.framesTracked + 1
    lastFrameSeen := currentFrame
    eel_detected := decide (t.framesTracked + 1 > MIN_FRAMES_EEL) || t.eel_detected }

/-- The CSV line written for a track after its update (line 160). -/
def reportRow (currentFrame : Int) (timestamp : ℚ) (t : Track) : CsvRow :=
  { frame := currentFrame, timestamp_sec := timestamp, track_id := t.id
    x := t.position.x, y := t.position.y }

/-- The ids of the live tracks increase strictly along the list and are below
`nextTrackID`. -/
def WellFormed (s : State) : Prop :=
  (s.tracks.map Track.id).Pairwise (fun a b => a < b) ∧ ∀ t ∈ s.tracks, t.id < s.nextTrackID

instance (s : State) : Decidable (WellFormed s) := by
  unfold WellFormed
  infer_instance

/-- The track of index `k` takes the centre of index `j` in the frame: the flag of
the centre is not set when the association loop reaches the track and is set once
the loop body has run for it. -/
def consumes (frameWidth : ℚ) (s : State) (f : FrameInput) (k j : Nat) : Prop :=
  (loopStateAt frameWidth s f k).assigned.getD j false = false ∧
    (loopStateAt frameWidth s f (k + 1)).assigned.getD j false = true

instance (frameWidth : ℚ) (s : State) (f : FrameInput) (k j : Nat) :
    Decidable (consumes frameWidth s f k j) := by
  unfold consumes
  infer_instance

/-- A frame with the given centres, read at timestamp 0. -/
def sampleFrame (centres : List Point2f) : FrameInput :=
  { currentCenters := centres, timestamp := 0 }

/-- The frames number `start`, ..., `start + n - 1` of a scene with one centre
that moves three pixels down from each frame to the next, from `(100, 100)` on. -/
def swimmingFrames (start n : Nat) : List FrameInput :=
  (List.range n).map (fun i => sampleFrame [{ x := 100, y := 100 + 3 * ((start + i : Nat) : ℚ) }])

/-! # Theorems -/

/-! ## Distances and the nearest-centre search -/

theorem normSq_nonneg (a b : Point2f) : 0 ≤ normSq a b := by
  unfold normSq
  nlinarith [mul_self_nonneg (a.x - b.x), mul_self_nonneg (a.y - b.y)]

theorem normSq_self (a : Point2f) : normSq a a = 0 := by
  simp [normSq]

theorem distLt_iff (dSq r : ℚ) : distLt dSq r = true ↔ 0 < r ∧ dSq < r * r := by
  simp [distLt]

theorem getD_shift (asg : List Bool) (i j : Nat) (h : asg.getD (i + (j + 1)) false = false) :
    asg.getD (i + 1 + j) false = false := by
  rw [show i + 1 + j = i + (j + 1) by omega]
  exact h

/-- What the inner loop computes, started at index `i` with `(m, bo)`. -/
theorem nearestLoop_spec (pos : Point2f) (asg : List Bool) :
    ∀ (cs : List Point2f) (i : Nat) (m : ℚ) (bo : Option Nat),
      let r := nearestLoop pos asg cs i (m, bo)
      (r = (m, bo) ∧
          ∀ j c, cs[j]? = some c → asg.getD (i + j) false = false → m ≤ normSq pos c) ∨
      (∃ b c, r = (normSq pos c, some (i + b)) ∧ cs[b]? = some c ∧
          asg.getD (i + b) false = false ∧ normSq pos c < m ∧
          (∀ j c1, cs[j]? = some c1 → asg.getD (i + j) false = false →
            normSq pos c ≤ normSq pos c1) ∧
          (∀ j c1, j < b → cs[j]? = some c1 → asg.getD (i + j) false = false →
            normSq pos c < normSq pos c1)) := by
  intro cs
  induction cs with
  | nil =>
    intro i m bo
    left
    simp [nearestLoop]
  | cons c rest ih =>
    intro i m bo
    simp only [nearestLoop]
    by_cases ha : asg.getD i false = true
    · simp only [ha, if_true]
      rcases ih (i + 1) m bo with ⟨h1, h2⟩ | ⟨b, c0, h1, h2, h3, h4, h5, h6⟩
      · left
        refine ⟨h1, ?_⟩
        intro j c1 hj hu
        cases j with
        | zero => exact absurd (ha.symm.trans hu) (by decide)
        | succ j =>
          have := h2 j c1 (by simpa using hj) (getD_shift asg i j hu)
          exact this
      · right
        refine ⟨b + 1, c0, ?_, by simpa using h2, ?_, h4, ?_, ?_⟩
        · rw [h1, show i + 1 + b = i + (b + 1) by omega]
        · rw [show i + (b + 1) = i + 1 + b by omega]; exact h3
        · intro j c1 hj hu
          cases j with
          | zero => exact absurd (ha.symm.trans hu) (by decide)
          | succ j => exact h5 j c1 (by simpa using hj) (getD_shift asg i j hu)
        · intro j c1 hjb hj hu
          cases j with
          | zero => exact absurd (ha.symm.trans hu) (by decide)
          | succ j =>
            exact h6 j c1 (by omega) (by simpa using hj) (getD_shift asg i j hu)
    · have ha' : asg.getD i false = false := by simpa using ha
      simp only [ha', Bool.false_eq_true, if_false]
      by_cases hlt : normSq pos c < m
      · simp only [hlt, if_true]
        rcases ih (i + 1) (normSq pos c) (some i) with
          ⟨h1, h2⟩ | ⟨b, c0, h1, h2, h3, h4, h5, h6⟩
        · right
          refine ⟨0, c, by simpa using h1, by simp, by simpa using ha', hlt, ?_, ?_⟩
          · intro j c1 hj hu
            cases j with
            | zero => simp at hj; subst hj; exact le_refl _
            | succ j => exact h2 j c1 (by simpa using hj) (getD_shift asg i j hu)
          · intro j c1 hjb; omega
        · right
          refine ⟨b + 1, c0, ?_, by simpa using h2, ?_, lt_trans h4 hlt, ?_, ?_⟩
          · rw [h1, show i + 1 + b = i + (b + 1) by omega]
          · rw [show i + (b + 1) = i + 1 + b by omega]; exact h3
          · intro j c1 hj hu
            cases j with
            | zero => simp at hj; subst hj; exact le_of_lt h4
            | succ j => exact h5 j c1 (by simpa using hj) (getD_shift asg i j hu)
          · intro j c1 hjb hj hu
            cases j with
            | zero => simp at hj; subst hj; exact h4
            | succ j =>
              exact h6 j c1 (by omega) (by simpa using hj) (getD_shift asg i j hu)
      · simp only [hlt, if_false]
        rcases ih (i + 1) m bo with ⟨h1, h2⟩ | ⟨b, c0, h1, h2, h3, h4, h5, h6⟩
        · left
          refine ⟨h1, ?_⟩
          intro j c1 hj hu
          cases j with
          | zero => simp at hj; subst hj; exact not_lt.mp hlt
          | succ j => exact h2 j c1 (by simpa using hj) (getD_shift asg i j hu)
        · right
          refine ⟨b + 1, c0, ?_, by simpa using h2, ?_, h4, ?_, ?_⟩
          · rw [h1, show i + 1 + b = i + (b + 1) by omega]
          · rw [show i + (b + 1) = i + 1 + b by omega]; exact h3
          · intro j c1 hj hu
            cases j with
            | zero => simp at hj; subst hj; exact le_trans (le_of_lt h4) (not_lt.mp hlt)
            | succ j => exact h5 j c1 (by simpa using hj) (getD_shift asg i j hu)
          · intro j c1 hjb hj hu
            cases j with
            | zero => simp at hj; subst hj; exact lt_of_lt_of_le h4 (not_lt.mp hlt)
            | succ j =>
              exact h6 j c1 (by omega) (by simpa using hj) (getD_shift asg i j hu)

theorem nearest_some {pos : Point2f} {cs : List Point2f} {asg : List Bool} {d : ℚ} {b : Nat}
    (h : nearest pos cs asg = (d, some b)) :
    ∃ c, cs[b]? = some c ∧ asg.getD b false = false ∧ d = normSq pos c ∧ d < initMinDistSq ∧
      (∀ j c1, cs[j]? = some c1 → asg.getD j false = false → d ≤ normSq pos c1) ∧
      (∀ j c1, j < b → cs[j]? = some c1 → asg.getD j false = false → d < normSq pos c1) := by
  unfold nearest at h
  rcases nearestLoop_spec pos asg cs 0 initMinDistSq none with
    ⟨h1, _⟩ | ⟨b0, c, h1, h2, h3, h4, h5, h6⟩
  · rw [h1] at h
    exact absurd (congrArg Prod.snd h) (by simp)
  · rw [h1] at h
    have hd : normSq pos c = d := congrArg Prod.fst h
    have hb : b0 = b := by simpa using congrArg Prod.snd h
    subst hb
    subst hd
    refine ⟨c, h2, by simpa using h3, rfl, h4, ?_, ?_⟩
    · intro j c1 hj hu
      exact h5 j c1 hj (by simpa using hu)
    · intro j c1 hjb hj hu
      exact h6 j c1 hjb hj (by simpa using hu)

/-! ## The loop body -/

theorem updateTrack_none (W : ℚ) (cur : Int) (ts : ℚ) (cs : List Point2f) (t : Track)
    (st : LoopState) (d : ℚ) (h : nearest t.position cs st.assigned = (d, none)) :
    updateTrack W cur ts cs t st = (t, st) := by
  simp [updateTrack, h]

theorem updateTrack_far (W : ℚ) (cur : Int) (ts : ℚ) (cs : List Point2f) (t : Track)
    (st : LoopState) (d : ℚ) (b : Nat) (h : nearest t.position cs st.assigned = (d, some b))
    (hg : distLt d (W / 4) = false) :
    updateTrack W cur ts cs t st = (t, st) := by
  simp [updateTrack, h, hg]

theorem updateTrack_static (W : ℚ) (cur : Int) (ts : ℚ) (cs : List Point2f) (t : Track)
    (st : LoopState) (d : ℚ) (b : Nat) (h : nearest t.position cs st.assigned = (d, some b))
    (hg : distLt d (W / 4) = true) (hm : distLt d MIN_MOTION_DISTANCE = true) :
    updateTrack W cur ts cs t st = (t, { st with assigned := st.assigned.set b true }) := by
  simp [updateTrack, h, hg, hm]

theorem updateTrack_moved (W : ℚ) (cur : Int) (ts : ℚ) (cs : List Point2f) (t : Track)
    (st : LoopState) (d : ℚ) (b : Nat) (h : nearest t.position cs st.assigned = (d, some b))
    (hg : distLt d (W / 4) = true) (hm : distLt d MIN_MOTION_DISTANCE = false) :
    updateTrack W cur ts cs t st =
      (movedTrack cur (cs.getD b t.position) t,
        { assigned := st.assigned.set b true
          eelNumber :=
            if t.eel_detected = false ∧ t.framesTracked + 1 > MIN_FRAMES_EEL then st.eelNumber + 1
            else st.eelNumber
          csv_file :=
            if (movedTrack cur (cs.getD b t.position) t).eel_detected = true then
              st.csv_file ++ [reportRow cur ts (movedTrack cur (cs.getD b t.position) t)]
            else st.csv_file }) := by
  simp only [updateTrack, h, hg, hm, movedTrack, reportRow]
  by_cases h1 : t.framesTracked + 1 > MIN_FRAMES_EEL <;> cases h2 : t.eel_detected <;>
    simp [h1, h2]

/-- The three things the loop body can do to a track. -/
theorem updateTrack_cases (W : ℚ) (cur : Int) (ts : ℚ) (cs : List Point2f) (t : Track)
    (st : LoopState) :
    (updateTrack W cur ts cs t st = (t, st) ∧
      ((∃ d, nearest t.position cs st.assigned = (d, none)) ∨
        ∃ d b, nearest t.position cs st.assigned = (d, some b) ∧ distLt d (W / 4) = false)) ∨
    (∃ d b, nearest t.position cs st.assigned = (d, some b) ∧ distLt d (W / 4) = true ∧
      distLt d MIN_MOTION_DISTANCE = true ∧
      updateTrack W cur ts cs t st = (t, { st with assigned := st.assigned.set b true })) ∨
    (∃ d b, nearest t.position cs st.assigned = (d, some b) ∧ distLt d (W / 4) = true ∧
      distLt d MIN_MOTION_DISTANCE = false ∧
      updateTrack W cur ts cs t st =
        (movedTrack cur (cs.getD b t.position) t,
          { assigned := st.assigned.set b true
            eelNumber :=
              if t.eel_detected = false ∧ t.framesTracked + 1 > MIN_FRAMES_EEL then
                st.eelNumber + 1
              else st.eelNumber
            csv_file :=
              if (movedTrack cur (cs.getD b t.position) t).eel_detected = true then
                st.csv_file ++ [reportRow cur ts (movedTrack cur (cs.getD b t.position) t)]
              else st.csv_file })) := by
  rcases hn : nearest t.position cs st.assigned with ⟨d, _ | b⟩
  · exact Or.inl ⟨updateTrack_none W cur ts cs t st d hn, Or.inl ⟨d, rfl⟩⟩
  · cases hg : distLt d (W / 4)
    · exact Or.inl ⟨updateTrack_far W cur ts cs t st d b hn hg, Or.inr ⟨d, b, rfl, hg⟩⟩
    · cases hm : distLt d MIN_MOTION_DISTANCE
      · exact Or.inr (Or.inr ⟨d, b, rfl, hg, hm, updateTrack_moved W cur ts cs t st d b hn hg hm⟩)
      · exact Or.inr (Or.inl ⟨d, b, rfl, hg, hm, updateTrack_static W cur ts cs t st d b hn hg hm⟩)

theorem updateTrack_id (W : ℚ) (cur : Int) (ts : ℚ) (cs : List Point2f) (t : Track)
    (st : LoopState) : (updateTrack W cur ts cs t st).1.id = t.id := by
  rcases updateTrack_cases W cur ts cs t st with ⟨h, _⟩ | ⟨d, b, _, _, _, h⟩ | ⟨d, b, _, _, _, h⟩ <;>
    simp [h, movedTrack]

theorem updateTrack_eel_mono (W : ℚ) (cur : Int) (ts : ℚ) (cs : List Point2f) (t : Track)
    (st : LoopState) (he : t.eel_detected = true) :
    (updateTrack W cur ts cs t st).1.eel_detected = true := by
  rcases updateTrack_cases W cur ts cs t st with ⟨h, _⟩ | ⟨d, b, _, _, _, h⟩ | ⟨d, b, _, _, _, h⟩ <;>
    simp [h, movedTrack, he]

/-- The loop body leaves the record alone or stamps it with the current frame. -/
theorem updateTrack_same_or_seen (W : ℚ) (cur : Int) (ts : ℚ) (cs : List Point2f) (t : Track)
    (st : LoopState) :
    (updateTrack W cur ts cs t st).1 = t ∨
      (updateTrack W cur ts cs t st).1.lastFrameSeen = cur := by
  rcases updateTrack_cases W cur ts cs t st with ⟨h, _⟩ | ⟨d, b, _, _, _, h⟩ | ⟨d, b, _, _, _, h⟩ <;>
    simp [h, movedTrack]

theorem updateTrack_assigned_length (W : ℚ) (cur : Int) (ts : ℚ) (cs : List Point2f) (t : Track)
    (st : LoopState) :
    (updateTrack W cur ts cs t st).2.assigned.length = st.assigned.length := by
  rcases updateTrack_cases W cur ts cs t st with ⟨h, _⟩ | ⟨d, b, _, _, _, h⟩ | ⟨d, b, _, _, _, h⟩ <;>
    simp [h]

theorem getD_set_true_of_true (l : List Bool) (b j : Nat) (h : l.getD j false = true) :
    (l.set b true).getD j false = true := by
  simp only [List.getD_eq_getElem?_getD] at h ⊢
  by_cases hbj : b = j
  · subst hbj
    by_cases hl : b < l.length
    · simp [List.getElem?_set, hl]
    · simp [List.getElem?_eq_none (not_lt.mp hl)] at h
  · rw [List.getElem?_set_ne hbj]
    exact h

theorem updateTrack_assigned_mono (W : ℚ) (cur : Int) (ts : ℚ) (cs : List Point2f) (t : Track)
    (st : LoopState) (j : Nat) (h : st.assigned.getD j false = true) :
    (updateTrack W cur ts cs t st).2.assigned.getD j false = true := by
  rcases updateTrack_cases W cur ts cs t st with ⟨h1, _⟩ | ⟨d, b, _, _, _, h1⟩ | ⟨d, b, _, _, _, h1⟩
  · rw [h1]; exact h
  · rw [h1]; exact getD_set_true_of_true _ _ _ h
  · rw [h1]; exact getD_set_true_of_true _ _ _ h

theorem associate_length (W : ℚ) (cur : Int) (ts : ℚ) (cs : List Point2f) :
    ∀ (xs : List Track) (st : LoopState), (associate W cur ts cs xs st).1.length = xs.length := by
  intro xs
  induction xs with
  | nil => intro st; simp [associate]
  | cons x xs ih => intro st; simp [associate, ih]

theorem associate_map_id (W : ℚ) (cur : Int) (ts : ℚ) (cs : List Point2f) :
    ∀ (xs : List Track) (st : LoopState),
      (associate W cur ts cs xs st).1.map Track.id = xs.map Track.id := by
  intro xs
  induction xs with
  | nil => intro st; simp [associate]
  | cons x xs ih => intro st; simp [associate, ih, updateTrack_id]

theorem associate_assigned_length (W : ℚ) (cur : Int) (ts : ℚ) (cs : List Point2f) :
    ∀ (xs : List Track) (st : LoopState),
      (associate W cur ts cs xs st).2.assigned.length = st.assigned.length := by
  intro xs
  induction xs with
  | nil => intro st; simp [associate]
  | cons x xs ih => intro st; simp [associate, ih, updateTrack_assigned_length]

theorem associate_assigned_mono (W : ℚ) (cur : Int) (ts : ℚ) (cs : List Point2f) (j : Nat) :
    ∀ (xs : List Track) (st : LoopState), st.assigned.getD j false = true →
      (associate W cur ts cs xs st).2.assigned.getD j false = true := by
  intro xs
  induction xs with
  | nil => intro st h; simpa [associate] using h
  | cons x xs ih =>
    intro st h
    simp only [associate]
    exact ih _ (updateTrack_assigned_mono W cur ts cs x st j h)

/-- Every track after the association loop comes from a track before it, with
the same id, either untouched or stamped with the current frame; a confirmed
track stays confirmed. -/
theorem associate_mem (W : ℚ) (cur : Int) (ts : ℚ) (cs : List Point2f) :
    ∀ (xs : List Track) (st : LoopState) (t1 : Track), t1 ∈ (associate W cur ts cs xs st).1 →
      ∃ t ∈ xs, t1.id = t.id ∧ (t1 = t ∨ t1.lastFrameSeen = cur) ∧
        (t.eel_detected = true → t1.eel_detected = true) := by
  intro xs
  induction xs with
  | nil => intro st t1 h; simp [associate] at h
  | cons x xs ih =>
    intro st t1 h
    simp only [associate, List.mem_cons] at h
    rcases h with h | h
    · subst h
      exact ⟨x, by simp, updateTrack_id _ _ _ _ _ _, updateTrack_same_or_seen _ _ _ _ _ _,
        updateTrack_eel_mono _ _ _ _ _ _⟩
    · obtain ⟨t, ht, h1⟩ := ih _ t1 h
      exact ⟨t, by simp [ht], h1⟩

/-- Every track before the association loop has a successor after it. -/
theorem associate_mem_of (W : ℚ) (cur : Int) (ts : ℚ) (cs : List Point2f) :
    ∀ (xs : List Track) (st : LoopState) (t : Track), t ∈ xs →
      ∃ t1 ∈ (associate W cur ts cs xs st).1, t1.id = t.id ∧
        (t1 = t ∨ t1.lastFrameSeen = cur) := by
  intro xs
  induction xs with
  | nil => intro st t h; simp at h
  | cons x xs ih =>
    intro st t h
    simp only [List.mem_cons] at h
    rcases h with h | h
    · subst h
      exact ⟨(updateTrack W cur ts cs t st).1, by simp [associate],
        updateTrack_id _ _ _ _ _ _, updateTrack_same_or_seen _ _ _ _ _ _⟩
    · obtain ⟨t1, ht1, h1⟩ := ih (updateTrack W cur ts cs x st).2 t h
      exact ⟨t1, by simp [associate, ht1], h1⟩

theorem createTracks_next (cur : Int) (asg : List Bool) :
    ∀ (cs : List Point2f) (i : Nat) (n : Int),
      (createTracks cur asg cs i n).2 = n + ((createTracks cur asg cs i n).1.length : Int) := by
  intro cs
  induction cs with
  | nil => intro i n; simp [createTracks]
  | cons c rest ih =>
    intro i n
    simp only [createTracks]
    split
    · simp only [List.length_cons]
      rw [ih]
      push_cast
      ring
    · exact ih _ _

/-- The ids handed out by the creation loop are `n, n + 1, ...` in this order. -/
theorem createTracks_ids (cur : Int) (asg : List Bool) :
    ∀ (cs : List Point2f) (i : Nat) (n : Int),
      (createTracks cur asg cs i n).1.map Track.id =
        (List.range (createTracks cur asg cs i n).1.length).map (fun (r : Nat) => n + (r : Int)) := by
  intro cs
  induction cs with
  | nil => intro i n; simp [createTracks]
  | cons c rest ih =>
    intro i n
    simp only [createTracks]
    split
    · simp only [List.length_cons, List.map_cons]
      rw [List.range_succ_eq_map, ih]
      simp only [List.map_cons, List.map_map, Nat.cast_zero, add_zero]
      congr 1
      apply List.map_congr_left
      intro r _
      show n + 1 + (r : Int) = n + ((r + 1 : Nat) : Int)
      push_cast
      ring
    · exact ih _ _

theorem createTracks_mem (cur : Int) (asg : List Bool) :
    ∀ (cs : List Point2f) (i : Nat) (n : Int) (t : Track), t ∈ (createTracks cur asg cs i n).1 →
      n ≤ t.id ∧ t.id < (createTracks cur asg cs i n).2 ∧ t.lastFrameSeen = cur ∧
        t.framesTracked = 1 ∧ t.eel_detected = false ∧ t.position ∈ cs := by
  intro cs
  induction cs with
  | nil => intro i n t h; simp [createTracks] at h
  | cons c rest ih =>
    intro i n t h
    simp only [createTracks] at h ⊢
    split at h
    · rename_i hu
      simp only [hu, if_true]
      simp only [List.mem_cons] at h
      rcases h with h | h
      · subst h
        refine ⟨le_refl _, ?_, rfl, rfl, rfl, by simp⟩
        rw [createTracks_next]
        simp only
        omega
      · obtain ⟨h1, h2, h3, h4, h5, h6⟩ := ih _ _ t h
        exact ⟨by omega, h2, h3, h4, h5, by simp [h6]⟩
    · rename_i hu
      simp only [hu]
      obtain ⟨h1, h2, h3, h4, h5, h6⟩ := ih _ _ t h
      exact ⟨h1, h2, h3, h4, h5, by simp [h6]⟩

theorem createTracks_next_le (cur : Int) (asg : List Bool) (cs : List Point2f) (i : Nat)
    (n : Int) : n ≤ (createTracks cur asg cs i n).2 := by
  rw [createTracks_next]
  omega

theorem createTracks_pairwise (cur : Int) (asg : List Bool) :
    ∀ (cs : List Point2f) (i : Nat) (n : Int),
      ((createTracks cur asg cs i n).1.map Track.id).Pairwise (fun a b => a < b) := by
  intro cs
  induction cs with
  | nil => intro i n; simp [createTracks]
  | cons c rest ih =>
    intro i n
    simp only [createTracks]
    split
    · simp only [List.map_cons, List.pairwise_cons]
      refine ⟨?_, ih _ _⟩
      intro a ha
      obtain ⟨t, ht, rfl⟩ := List.mem_map.mp ha
      have := (createTracks_mem cur asg rest (i + 1) (n + 1) t ht).1
      omega
    · exact ih _ _

theorem mem_pruneTracks (cur : Int) (ts : List Track) (t : Track) :
    t ∈ pruneTracks cur ts ↔ t ∈ ts ∧ cur - t.lastFrameSeen ≤ MAX_FRAMES_MISSED := by
  simp [pruneTracks, isOld]

theorem pruneTracks_sublist (cur : Int) (ts : List Track) :
    (pruneTracks cur ts).Sublist ts := by
  unfold pruneTracks
  exact List.filter_sublist ts

/-! ## One frame -/

theorem runFrom_append (W : ℚ) (s : State) (fs gs : List FrameInput) :
    runFrom W s (fs ++ gs) = runFrom W (runFrom W s fs) gs := by
  simp [runFrom, List.foldl_append]

theorem run_append (W : ℚ) (fs gs : List FrameInput) :
    run W (fs ++ gs) = runFrom W (run W fs) gs := by
  simp [run, runFrom_append]

theorem run_snoc (W : ℚ) (fs : List FrameInput) (f : FrameInput) :
    run W (fs ++ [f]) = step W (run W fs) f := by
  simp [run, runFrom, List.foldl_append]

theorem runFrom_cons (W : ℚ) (s : State) (f : FrameInput) (gs : List FrameInput) :
    runFrom W s (f :: gs) = runFrom W (step W s f) gs := by
  simp [runFrom]

theorem step_nextTrackID_le (W : ℚ) (s : State) (f : FrameInput) :
    s.nextTrackID ≤ (step W s f).nextTrackID := by
  simp only [step, createFrame]
  exact createTracks_next_le _ _ _ _ _

theorem runFrom_nextTrackID_le (W : ℚ) (gs : List FrameInput) :
    ∀ s : State, s.nextTrackID ≤ (runFrom W s gs).nextTrackID := by
  induction gs with
  | nil => intro s; simp [runFrom]
  | cons g gs ih =>
    intro s
    rw [runFrom_cons]
    exact le_trans (step_nextTrackID_le W s g) (ih _)

theorem step_currentFrame (W : ℚ) (s : State) (f : FrameInput) :
    (step W s f).currentFrame = s.currentFrame + 1 := rfl

theorem runFrom_currentFrame (W : ℚ) (gs : List FrameInput) :
    ∀ s : State, (runFrom W s gs).currentFrame = s.currentFrame + (gs.length : Int) := by
  induction gs with
  | nil => intro s; simp [runFrom]
  | cons g gs ih =>
    intro s
    rw [runFrom_cons, ih, step_currentFrame]
    simp only [List.length_cons]
    push_cast
    ring

theorem run_currentFrame (W : ℚ) (fs : List FrameInput) :
    (run W fs).currentFrame = (fs.length : Int) := by
  simp [run, runFrom_currentFrame, initState]

/-- Where the tracks after a frame come from: a track of the state before, with
the same id, untouched or stamped with the current frame, or a track created in
this frame. None of them is old. -/
theorem step_mem (W : ℚ) (s : State) (f : FrameInput) (t1 : Track)
    (h : t1 ∈ (step W s f).tracks) :
    ((∃ t ∈ s.tracks, t1.id = t.id ∧ (t1 = t ∨ t1.lastFrameSeen = s.currentFrame + 1) ∧
        (t.eel_detected = true → t1.eel_detected = true)) ∨
      t1 ∈ (createFrame W s f).1) ∧
    s.currentFrame + 1 - t1.lastFrameSeen ≤ MAX_FRAMES_MISSED := by
  simp only [step, mem_pruneTracks, List.mem_append] at h
  refine ⟨?_, h.2⟩
  rcases h.1 with h1 | h1
  · exact Or.inl (associate_mem _ _ _ _ _ _ t1 h1)
  · exact Or.inr h1

theorem createFrame_mem (W : ℚ) (s : State) (f : FrameInput) (t : Track)
    (h : t ∈ (createFrame W s f).1) :
    s.nextTrackID ≤ t.id ∧ t.id < (step W s f).nextTrackID ∧
      t.lastFrameSeen = s.currentFrame + 1 ∧ t.framesTracked = 1 ∧ t.eel_detected = false ∧
      t.position ∈ f.currentCenters :=
  createTracks_mem _ _ _ _ _ t h

/-- A track stamped with the current frame survives the pruning of the frame. -/
theorem mem_step_of_seen (W : ℚ) (s : State) (f : FrameInput) (t : Track)
    (h : t ∈ (associateFrame W s f).1 ++ (createFrame W s f).1)
    (hs : t.lastFrameSeen = s.currentFrame + 1) : t ∈ (step W s f).tracks := by
  simp only [step, mem_pruneTracks]
  refine ⟨h, ?_⟩
  rw [hs]
  simp [MAX_FRAMES_MISSED]

theorem mem_step_of_created (W : ℚ) (s : State) (f : FrameInput) (t : Track)
    (h : t ∈ (createFrame W s f).1) : t ∈ (step W s f).tracks :=
  mem_step_of_seen W s f t (List.mem_append_right _ h) (createFrame_mem W s f t h).2.2.1

/-! ## Well-formed states -/

theorem wellFormed_initState : WellFormed initState := by
  simp [WellFormed, initState]

theorem wellFormed_step (W : ℚ) (s : State) (f : FrameInput) (h : WellFormed s) :
    WellFormed (step W s f) := by
  obtain ⟨h1, h2⟩ := h
  constructor
  · have hsub : ((step W s f).tracks.map Track.id).Sublist
        (((associateFrame W s f).1 ++ (createFrame W s f).1).map Track.id) :=
      (pruneTracks_sublist _ _).map _
    refine List.Pairwise.sublist hsub ?_
    rw [List.map_append, List.pairwise_append]
    refine ⟨?_, createTracks_pairwise _ _ _ _ _, ?_⟩
    · simp only [associateFrame]
      rw [associate_map_id]
      exact h1
    · intro a ha b hb
      simp only [associateFrame] at ha
      rw [associate_map_id] at ha
      obtain ⟨t, ht, rfl⟩ := List.mem_map.mp ha
      obtain ⟨t1, ht1, rfl⟩ := List.mem_map.mp hb
      have := h2 t ht
      have := (createFrame_mem W s f t1 ht1).1
      omega
  · intro t1 ht1
    rcases (step_mem W s f t1 ht1).1 with ⟨t, ht, hid, _⟩ | hc
    · have := h2 t ht
      have := step_nextTrackID_le W s f
      omega
    · exact (createFrame_mem W s f t1 hc).2.1

theorem wellFormed_runFrom (W : ℚ) (gs : List FrameInput) :
    ∀ s : State, WellFormed s → WellFormed (runFrom W s gs) := by
  induction gs with
  | nil => intro s h; simpa [runFrom] using h
  | cons g gs ih =>
    intro s h
    rw [runFrom_cons]
    exact ih _ (wellFormed_step W s g h)

theorem wellFormed_run (W : ℚ) (fs : List FrameInput) : WellFormed (run W fs) :=
  wellFormed_runFrom W fs _ wellFormed_initState

theorem WellFormed.nodup {s : State} (h : WellFormed s) : (s.tracks.map Track.id).Nodup :=
  h.1.imp (fun hab => ne_of_lt hab)

/-- In a well-formed state a track is determined by its id. -/
theorem WellFormed.eq_of_id {s : State} (h : WellFormed s) {t1 t2 : Track} (h1 : t1 ∈ s.tracks)
    (h2 : t2 ∈ s.tracks) (hid : t1.id = t2.id) : t1 = t2 :=
  List.inj_on_of_nodup_map h.nodup h1 h2 hid

/-- An id below the counter that no live track carries is never carried again. -/
theorem id_not_reused (W : ℚ) (gs : List FrameInput) :
    ∀ (s : State) (i : Int), i < s.nextTrackID → (∀ t ∈ s.tracks, t.id ≠ i) →
      ∀ t ∈ (runFrom W s gs).tracks, t.id ≠ i := by
  induction gs with
  | nil => intro s i _ h; simpa [runFrom] using h
  | cons g gs ih =>
    intro s i hi h
    rw [runFrom_cons]
    refine ih (step W s g) i (lt_of_lt_of_le hi (step_nextTrackID_le W s g)) ?_
    intro t1 ht1 hid
    rcases (step_mem W s g t1 ht1).1 with ⟨t, ht, hid1, _⟩ | hc
    · exact h t ht (hid1 ▸ hid)
    · have := (createFrame_mem W s g t1 hc).1
      omega

/-! ## The loop variables when the loop reaches a given track -/

theorem associate_getElem? (W : ℚ) (cur : Int) (ts : ℚ) (cs : List Point2f) :
    ∀ (xs : List Track) (st : LoopState) (k : Nat) (t : Track), xs[k]? = some t →
      (associate W cur ts cs xs st).1[k]? =
        some (updateTrack W cur ts cs t (associate W cur ts cs (xs.take k) st).2).1 := by
  intro xs
  induction xs with
  | nil => intro st k t h; simp at h
  | cons x xs ih =>
    intro st k t h
    cases k with
    | zero =>
      simp only [List.getElem?_cons_zero, Option.some.injEq] at h
      subst h
      simp [associate]
    | succ k =>
      simp only [List.getElem?_cons_succ] at h
      simp only [associate, List.getElem?_cons_succ, List.take_succ_cons]
      exact ih _ k t h

theorem associate_take_succ (W : ℚ) (cur : Int) (ts : ℚ) (cs : List Point2f) :
    ∀ (xs : List Track) (st : LoopState) (k : Nat) (t : Track), xs[k]? = some t →
      (associate W cur ts cs (xs.take (k + 1)) st).2 =
        (updateTrack W cur ts cs t (associate W cur ts cs (xs.take k) st).2).2 := by
  intro xs
  induction xs with
  | nil => intro st k t h; simp at h
  | cons x xs ih =>
    intro st k t h
    cases k with
    | zero =>
      simp only [List.getElem?_cons_zero, Option.some.injEq] at h
      subst h
      simp [associate]
    | succ k =>
      simp only [List.getElem?_cons_succ] at h
      simp only [associate, List.take_succ_cons]
      exact ih _ k t h

/-- The loop variables after the body has run for the track of index `k`. -/
theorem loopStateAt_succ (W : ℚ) (s : State) (f : FrameInput) (k : Nat) (t : Track)
    (h : s.tracks[k]? = some t) :
    loopStateAt W s f (k + 1) =
      (updateTrack W (s.currentFrame + 1) f.timestamp f.currentCenters t
        (loopStateAt W s f k)).2 :=
  associate_take_succ _ _ _ _ _ _ k t h

/-- The track of index `k` after the association loop. -/
theorem associateFrame_getElem? (W : ℚ) (s : State) (f : FrameInput) (k : Nat) (t : Track)
    (h : s.tracks[k]? = some t) :
    (associateFrame W s f).1[k]? =
      some (updateTrack W (s.currentFrame + 1) f.timestamp f.currentCenters t
        (loopStateAt W s f k)).1 :=
  associate_getElem? _ _ _ _ _ _ k t h

theorem loopStateAt_of_length_le (W : ℚ) (s : State) (f : FrameInput) (k : Nat)
    (h : s.tracks.length ≤ k) : loopStateAt W s f k = (associateFrame W s f).2 := by
  simp [loopStateAt, associateFrame, List.take_of_length_le h]

theorem loopStateAt_assigned_length (W : ℚ) (s : State) (f : FrameInput) (k : Nat) :
    (loopStateAt W s f k).assigned.length = f.currentCenters.length := by
  simp [loopStateAt, associate_assigned_length, loopStart]

theorem eel_detected_mono_runFrom (W : ℚ) (gs : List FrameInput) :
    ∀ (s : State), WellFormed s → ∀ t ∈ s.tracks, t.eel_detected = true →
      ∀ t1 ∈ (runFrom W s gs).tracks, t1.id = t.id → t1.eel_detected = true := by
  induction gs with
  | nil =>
    intro s hs t ht he t1 ht1 hid
    have : t1 = t := hs.eq_of_id (by simpa [runFrom] using ht1) ht hid
    rw [this]; exact he
  | cons g gs ih =>
    intro s hs t ht he t1 ht1 hid
    rw [runFrom_cons] at ht1
    by_cases hex : ∃ t2 ∈ (step W s g).tracks, t2.id = t.id
    · obtain ⟨t2, ht2, hid2⟩ := hex
      have he2 : t2.eel_detected = true := by
        rcases (step_mem W s g t2 ht2).1 with ⟨t0, ht0, hid0, _, hmono⟩ | hc
        · have : t0 = t := hs.eq_of_id ht0 ht (hid0.symm.trans hid2)
          subst this
          exact hmono he
        · have := (createFrame_mem W s g t2 hc).1
          have := hs.2 t ht
          omega
      exact ih (step W s g) (wellFormed_step W s g hs) t2 ht2 he2 t1 ht1 (hid.trans hid2.symm)
    · exfalso
      have hlt : t.id < (step W s g).nextTrackID :=
        lt_of_lt_of_le (hs.2 t ht) (step_nextTrackID_le W s g)
      exact id_not_reused W gs (step W s g) t.id hlt
        (fun t2 ht2 hid2 => hex ⟨t2, ht2, hid2⟩) t1 ht1 hid

/-! ## The CSV lines of a frame -/

theorem run_take_succ (W : ℚ) (fs : List FrameInput) (f : FrameInput) (gs : List FrameInput)
    (n : Nat) (g : FrameInput) (hg : gs[n]? = some g) :
    run W (fs ++ f :: gs.take (n + 1)) = step W (run W (fs ++ f :: gs.take n)) g := by
  rw [List.take_succ, hg, ← run_snoc]
  simp

theorem run_take_currentFrame (W : ℚ) (fs : List FrameInput) (f : FrameInput)
    (gs : List FrameInput) (n : Nat) (hn : n ≤ gs.length) :
    (run W (fs ++ f :: gs.take n)).currentFrame = (fs.length : Int) + 1 + (n : Int) := by
  rw [run_currentFrame]
  simp [List.length_take, Nat.min_eq_left hn]
  ring

/-! ## A frame seen from one track -/

theorem loopStateAt_succ_of_length_le (W : ℚ) (s : State) (f : FrameInput) (k : Nat)
    (h : s.tracks.length ≤ k) : loopStateAt W s f (k + 1) = loopStateAt W s f k := by
  rw [loopStateAt_of_length_le W s f k h, loopStateAt_of_length_le W s f (k + 1) (by omega)]

theorem getD_set_true_self (l : List Bool) (b : Nat) (h : b < l.length) :
    (l.set b true).getD b false = true := by
  simp [List.getD_eq_getElem?_getD, List.getElem?_set, h]

/-- The centre found by the search has an index inside the flag vector of the frame. -/
theorem nearest_index_lt (W : ℚ) (s : State) (f : FrameInput) (k : Nat) (p : Point2f) (d : ℚ)
    (b : Nat) (hn : nearest p f.currentCenters (loopStateAt W s f k).assigned = (d, some b)) :
    b < (loopStateAt W s f k).assigned.length := by
  obtain ⟨c, hc, _⟩ := nearest_some hn
  rw [loopStateAt_assigned_length]
  exact (List.getElem?_eq_some_iff.mp hc).1

/-! ## Tracks after a frame, by id -/

theorem distLt_zero_floor : distLt 0 MIN_MOTION_DISTANCE = true := by
  simp [distLt, MIN_MOTION_DISTANCE]

/-- A track standing on the only centre of the frame is left as it is, and so
are the counter and the CSV file. -/
theorem updateTrack_still (W : ℚ) (cur : Int) (ts : ℚ) (p : Point2f) (t : Track)
    (st : LoopState) (hp : t.position = p) :
    (updateTrack W cur ts [p] t st).1 = t ∧
      (updateTrack W cur ts [p] t st).2.eelNumber = st.eelNumber ∧
      (updateTrack W cur ts [p] t st).2.csv_file = st.csv_file := by
  rcases updateTrack_cases W cur ts [p] t st with ⟨h, _⟩ | ⟨d, b, _, _, _, h⟩ |
    ⟨d, b, hn, _, hm, _⟩
  · simp [h]
  · simp [h]
  · exfalso
    obtain ⟨c, hc, _, hd, _⟩ := nearest_some hn
    have hcp : c = p := by
      have := List.getElem?_mem hc
      simpa using this
    rw [hcp, hp, normSq_self] at hd
    rw [hd, distLt_zero_floor] at hm
    exact absurd hm (by decide)

theorem associate_still (W : ℚ) (cur : Int) (ts : ℚ) (p : Point2f) :
    ∀ (xs : List Track) (st : LoopState), (∀ t ∈ xs, t.position = p) →
      (associate W cur ts [p] xs st).1 = xs ∧
        (associate W cur ts [p] xs st).2.eelNumber = st.eelNumber ∧
        (associate W cur ts [p] xs st).2.csv_file = st.csv_file := by
  intro xs
  induction xs with
  | nil => intro st _; simp [associate]
  | cons x xs ih =>
    intro st h
    obtain ⟨h1, h2, h3⟩ := updateTrack_still W cur ts p x st (h x (by simp))
    obtain ⟨h4, h5, h6⟩ := ih (updateTrack W cur ts [p] x st).2
      (fun t ht => h t (by simp [ht]))
    simp only [associate]
    exact ⟨by rw [h1, h4], by rw [h5, h2], by rw [h6, h3]⟩

/-- The facts kept by every frame of a scene whose only centre stays at `p`. -/
theorem still_step (W : ℚ) (p : Point2f) (s : State) (f : FrameInput)
    (hf : f.currentCenters = [p])
    (hs : ∀ t ∈ s.tracks, t.framesTracked = 1 ∧ t.eel_detected = false ∧ t.position = p) :
    (∀ t ∈ (step W s f).tracks, t.framesTracked = 1 ∧ t.eel_detected = false ∧ t.position = p) ∧
      (step W s f).eelNumber = s.eelNumber ∧ (step W s f).csv_file = s.csv_file ∧
      (associateFrame W s f).1 = s.tracks := by
  have ha := associate_still W (s.currentFrame + 1) f.timestamp p s.tracks (loopStart s f)
    (fun t ht => (hs t ht).2.2)
  have ha1 : (associateFrame W s f).1 = s.tracks := by
    simp only [associateFrame, hf]; exact ha.1
  refine ⟨?_, ?_, ?_, ha1⟩
  · intro t ht
    simp only [step, mem_pruneTracks, List.mem_append] at ht
    rcases ht.1 with h | h
    · rw [ha1] at h
      exact hs t h
    · obtain ⟨_, _, _, h1, h2, h3⟩ := createFrame_mem W s f t h
      rw [hf] at h3
      exact ⟨h1, h2, by simpa using h3⟩
  · show (associateFrame W s f).2.eelNumber = _
    simp only [associateFrame, hf]; exact ha.2.1
  · show (associateFrame W s f).2.csv_file = _
    simp only [associateFrame, hf]; exact ha.2.2

theorem still_run (W : ℚ) (p : Point2f) (fs : List FrameInput)
    (hfs : ∀ f ∈ fs, f.currentCenters = [p]) :
    (∀ t ∈ (run W fs).tracks, t.framesTracked = 1 ∧ t.eel_detected = false ∧ t.position = p) ∧
      (run W fs).eelNumber = 0 ∧ (run W fs).csv_file = [] := by
  induction fs using List.reverseRecOn with
  | nil => simp [run, runFrom, initState]
  | append_singleton fs f ih =>
    obtain ⟨h1, h2, h3⟩ := ih (fun g hg => hfs g (by simp [hg]))
    obtain ⟨h4, h5, h6, _⟩ := still_step W p (run W fs) f (hfs f (by simp)) h1
    rw [run_snoc]
    exact ⟨h4, by rw [h5, h2], by rw [h6, h3]⟩

/-- The track made on the first frame of a still scene. -/
theorem still_first_frame (W : ℚ) (p : Point2f) (f : FrameInput) (hf : f.currentCenters = [p]) :
    (run W [f]).tracks =
        [{ id := 1, position := p, framesTracked := 1, lastFrameSeen := 1, eel_detected := false }] ∧
      (run W [f]).nextTrackID = 2 ∧ (run W [f]).currentFrame = 1 := by
  simp [run, runFrom, step, initState, associateFrame, createFrame, associate, loopStart, hf,
    createTracks, pruneTracks, isOld, MAX_FRAMES_MISSED]

/-- With a positive gate the first track takes the centre of every later frame:
it is alone in the live set until it is pruned. -/
theorem still_step_alone (W : ℚ) (hW : 0 < W) (p : Point2f) (s : State) (f : FrameInput)
    (hf : f.currentCenters = [p]) (t : Track) (hp : t.position = p) (hs : s.tracks = [t])
    (hold : s.currentFrame + 1 - t.lastFrameSeen ≤ MAX_FRAMES_MISSED) :
    (step W s f).tracks = [t] := by
  have hn : nearest t.position [p] [false] = (0, some 0) := by
    simp [nearest, nearestLoop, hp, normSq_self, initMinDistSq]
  have hg : distLt 0 (W / 4) = true := by
    simp only [distLt_iff]
    constructor <;> positivity
  have hu : updateTrack W (s.currentFrame + 1) f.timestamp [p] t (loopStart s f) =
      (t, { loopStart s f with assigned := [true] }) := by
    have := updateTrack_static W (s.currentFrame + 1) f.timestamp [p] t (loopStart s f) 0 0
      (by simpa [loopStart, hf] using hn) hg distLt_zero_floor
    simpa [loopStart, hf] using this
  have ha : associateFrame W s f = ([t], { loopStart s f with assigned := [true] }) := by
    simp only [associateFrame, hs, associate]
    rw [hf, hu]
  have hc : (createFrame W s f).1 = [] := by
    simp [createFrame, ha, hf, createTracks]
  simp only [step, ha, hc, List.append_nil, pruneTracks, isOld]
  simp [hold]

/-! ## The gate -/

theorem getD_set_ne (l : List Bool) (b j : Nat) (h : b ≠ j) :
    (l.set b true).getD j false = l.getD j false := by
  simp only [List.getD_eq_getElem?_getD]
  rw [List.getElem?_set_ne h]

/-- What the loop body does to the flags when it runs for the track of index `k`. -/
theorem consume_step (W : ℚ) (s : State) (f : FrameInput) (k : Nat) :
    ((loopStateAt W s f (k + 1)).assigned = (loopStateAt W s f k).assigned ∧
        ∀ j, ¬ consumes W s f k j) ∨
      ∃ b, b < f.currentCenters.length ∧ k < s.tracks.length ∧
        (loopStateAt W s f k).assigned.getD b false = false ∧
        (loopStateAt W s f (k + 1)).assigned = (loopStateAt W s f k).assigned.set b true ∧
        ∀ j, consumes W s f k j ↔ j = b := by
  have hsame : (loopStateAt W s f (k + 1)).assigned = (loopStateAt W s f k).assigned →
      ∀ j, ¬ consumes W s f k j := by
    intro h j hc
    unfold consumes at hc
    rw [h, hc.1] at hc
    exact absurd hc.2 (by decide)
  by_cases hk : k < s.tracks.length
  · have hsucc := loopStateAt_succ W s f k s.tracks[k] (List.getElem?_eq_getElem hk)
    have hset : ∀ d b, nearest s.tracks[k].position f.currentCenters
          (loopStateAt W s f k).assigned = (d, some b) →
        (loopStateAt W s f (k + 1)).assigned = (loopStateAt W s f k).assigned.set b true →
        ∃ b, b < f.currentCenters.length ∧ k < s.tracks.length ∧
          (loopStateAt W s f k).assigned.getD b false = false ∧
          (loopStateAt W s f (k + 1)).assigned = (loopStateAt W s f k).assigned.set b true ∧
          ∀ j, consumes W s f k j ↔ j = b := by
      intro d b hn h
      obtain ⟨c, hc, hfree, _⟩ := nearest_some hn
      have hb := nearest_index_lt W s f k _ d b hn
      refine ⟨b, (List.getElem?_eq_some_iff.mp hc).1, hk, hfree, h, ?_⟩
      intro j
      unfold consumes
      rw [h]
      constructor
      · rintro ⟨h1, h2⟩
        by_contra hne
        rw [getD_set_ne _ b j (fun e => hne e.symm), h1] at h2
        exact absurd h2 (by decide)
      · rintro rfl
        exact ⟨hfree, getD_set_true_self _ j hb⟩
    rcases updateTrack_cases W (s.currentFrame + 1) f.timestamp f.currentCenters s.tracks[k]
        (loopStateAt W s f k) with
      ⟨hu, _⟩ | ⟨d, b, hn, _, _, hu⟩ | ⟨d, b, hn, _, _, hu⟩
    · left
      have : (loopStateAt W s f (k + 1)).assigned = (loopStateAt W s f k).assigned := by
        rw [hsucc, hu]
      exact ⟨this, hsame this⟩
    · right
      exact hset d b hn (by rw [hsucc, hu])
    · right
      exact hset d b hn (by rw [hsucc, hu])
  · left
    have : (loopStateAt W s f (k + 1)).assigned = (loopStateAt W s f k).assigned := by
      rw [loopStateAt_succ_of_length_le W s f k (not_lt.mp hk)]
    exact ⟨this, hsame this⟩

theorem consumes_lt (W : ℚ) (s : State) (f : FrameInput) (k j : Nat)
    (h : consumes W s f k j) : k < s.tracks.length ∧ j < f.currentCenters.length := by
  rcases consume_step W s f k with ⟨_, hno⟩ | ⟨b, hb, hk, _, _, hiff⟩
  · exact absurd h (hno j)
  · rw [(hiff j).mp h]
    exact ⟨hk, hb⟩

/-- C1. After every processed frame of a run from the initial state, no two live
tracks share an id (the ids even increase strictly along the track list) and every
live id is below `nextTrackID`; in every frame the creation loop hands out the ids
`nextTrackID, nextTrackID + 1, ...` in this order and leaves the counter just after
the last one; and an id below the counter that no live track carries (an id of a
pruned track) is carried by no track after any further frames. -/
theorem C1_ids_unique_increasing_never_reused (frameWidth : ℚ) (fs : List FrameInput) :
    ((run frameWidth fs).tracks.map Track.id).Nodup ∧
    ((run frameWidth fs).tracks.map Track.id).Pairwise (fun a b => a < b) ∧
    (∀ t ∈ (run frameWidth fs).tracks, t.id < (run frameWidth fs).nextTrackID) ∧
    (∀ f : FrameInput,
      (createFrame frameWidth (run frameWidth fs) f).1.map Track.id =
          (List.range (createFrame frameWidth (run frameWidth fs) f).1.length).map
            (fun (r : Nat) => (run frameWidth fs).nextTrackID + (r : Int)) ∧
        (run frameWidth (fs ++ [f])).nextTrackID =
          (run frameWidth fs).nextTrackID +
            ((createFrame frameWidth (run frameWidth fs) f).1.length : Int) ∧
        ∀ t ∈ (createFrame frameWidth (run frameWidth fs) f).1,
          t ∈ (run frameWidth (fs ++ [f])).tracks) ∧
    (∀ (gs : List FrameInput) (i : Int), i < (run frameWidth fs).nextTrackID →
      (∀ t ∈ (run frameWidth fs).tracks, t.id ≠ i) →
      ∀ t ∈ (run frameWidth (fs ++ gs)).tracks, t.id ≠ i) := by
  refine ⟨(wellFormed_run frameWidth fs).nodup, (wellFormed_run frameWidth fs).1,
    (wellFormed_run frameWidth fs).2, ?_, ?_⟩
  · intro f
    refine ⟨createTracks_ids _ _ _ _ _, ?_, ?_⟩
    · rw [run_snoc]
      exact createTracks_next _ _ _ _ _
    · intro t ht
      rw [run_snoc]
      exact mem_step_of_created _ _ _ t ht
  · intro gs i hi h
    rw [run_append]
    exact id_not_reused frameWidth gs _ i hi h

/-- C2. A live track that is confirmed stays confirmed: the association loop of
the next frame leaves a confirmed record at its index, and after any number of
further frames every live track of the same id is confirmed. -/
theorem C2_eel_detected_never_reset (frameWidth : ℚ) (fs gs : List FrameInput) (k : Nat)
    (t t1 : Track) (ht : (run frameWidth fs).tracks[k]? = some t)
    (he : t.eel_detected = true)
    (ht1 : t1 ∈ (run frameWidth (fs ++ gs)).tracks) (hid : t1.id = t.id) :
    t1.eel_detected = true ∧
      ∀ f : FrameInput, ∃ t2, (associateFrame frameWidth (run frameWidth fs) f).1[k]? = some t2 ∧
        t2.id = t.id ∧ t2.eel_detected = true := by
  constructor
  · rw [run_append] at ht1
    exact eel_detected_mono_runFrom frameWidth gs _ (wellFormed_run _ fs) t
      (List.getElem?_mem ht) he t1 ht1 hid
  · intro f
    exact ⟨_, associateFrame_getElem? frameWidth _ f k t ht, updateTrack_id _ _ _ _ _ _,
      updateTrack_eel_mono _ _ _ _ _ _ he⟩

/-- C3. A track created at frame `F` (the frame after the frames `fs`) whose
`lastFrameSeen` is never updated in the following frames `gs` is in the live set
after each of the frames `F, F + 1, ..., F + MAX_FRAMES_MISSED` and no live track
carries its id after frame `F + MAX_FRAMES_MISSED + 1` or any later frame. -/
theorem C3_unseen_track_pruned_after_51_frames (frameWidth : ℚ) (fs : List FrameInput)
    (f : FrameInput) (gs : List FrameInput) (t : Track)
    (hcreated : t ∈ (createFrame frameWidth (run frameWidth fs) f).1)
    (hnever : ∀ n ≤ gs.length, ∀ t1 ∈ (run frameWidth (fs ++ f :: gs.take n)).tracks,
      t1.id = t.id → t1.lastFrameSeen = t.lastFrameSeen) :
    ∀ n ≤ gs.length,
      (run frameWidth (fs ++ f :: gs.take n)).currentFrame = (fs.length : Int) + 1 + (n : Int) ∧
      ((n : Int) ≤ MAX_FRAMES_MISSED → t ∈ (run frameWidth (fs ++ f :: gs.take n)).tracks) ∧
      (MAX_FRAMES_MISSED < (n : Int) →
        ∀ t1 ∈ (run frameWidth (fs ++ f :: gs.take n)).tracks, t1.id ≠ t.id) := by
  have hseen : t.lastFrameSeen = (fs.length : Int) + 1 := by
    rw [(createFrame_mem _ _ _ t hcreated).2.2.1, run_currentFrame]
  have hwf : ∀ n, WellFormed (run frameWidth (fs ++ f :: gs.take n)) :=
    fun n => wellFormed_run _ _
  have h0 : t ∈ (run frameWidth (fs ++ f :: gs.take 0)).tracks := by
    simp only [List.take_zero]
    rw [run_snoc]
    exact mem_step_of_created _ _ _ t hcreated
  have hlt : ∀ n, t.id < (run frameWidth (fs ++ f :: gs.take n)).nextTrackID := by
    intro n
    have h1 : fs ++ f :: gs.take n = (fs ++ f :: gs.take 0) ++ gs.take n := by simp
    rw [h1, run_append]
    exact lt_of_lt_of_le ((hwf 0).2 t h0) (runFrom_nextTrackID_le _ _ _)
  intro n
  induction n with
  | zero =>
    intro hn
    refine ⟨run_take_currentFrame _ _ _ _ 0 hn, fun _ => h0, ?_⟩
    intro h
    simp [MAX_FRAMES_MISSED] at h
  | succ n ih =>
    intro hn
    obtain ⟨hcur, hlive, hgone⟩ := ih (Nat.le_of_succ_le hn)
    have hn1 : n < gs.length := hn
    have hg : gs[n]? = some gs[n] := List.getElem?_eq_getElem hn1
    have hstep := run_take_succ frameWidth fs f gs n gs[n] hg
    refine ⟨run_take_currentFrame _ _ _ _ (n + 1) hn, ?_, ?_⟩
    · intro hle
      have hle1 : (n : Int) ≤ MAX_FRAMES_MISSED := by push_cast at hle; omega
      have ht := hlive hle1
      rw [hstep]
      obtain ⟨t1, ht1, hid1, hcase⟩ :=
        associate_mem_of frameWidth ((run frameWidth (fs ++ f :: gs.take n)).currentFrame + 1)
          gs[n].timestamp gs[n].currentCenters _
          (loopStart (run frameWidth (fs ++ f :: gs.take n)) gs[n]) t ht
      rcases hcase with h1 | h1
      · subst h1
        simp only [step, mem_pruneTracks, List.mem_append]
        refine ⟨Or.inl ht1, ?_⟩
        rw [hcur, hseen]
        push_cast at hle
        omega
      · exfalso
        have hmem : t1 ∈ (run frameWidth (fs ++ f :: gs.take (n + 1))).tracks := by
          rw [hstep]
          exact mem_step_of_seen _ _ _ t1 (List.mem_append_left _ ht1) h1
        have := hnever (n + 1) hn t1 hmem hid1
        rw [h1, hcur, hseen] at this
        omega
    · intro hgt t1 ht1 hid
      by_cases hle1 : (n : Int) ≤ MAX_FRAMES_MISSED
      · have ht := hlive hle1
        have hlast := hnever (n + 1) hn t1 ht1 hid
        rw [hstep] at ht1
        obtain ⟨hfrom, hold⟩ := step_mem _ _ _ t1 ht1
        rcases hfrom with ⟨t0, ht0, hid0, hcase, _⟩ | hc
        · have h0t : t0 = t := (hwf n).eq_of_id ht0 ht (hid0.symm.trans hid)
          subst h0t
          rcases hcase with h1 | h1
          · subst h1
            rw [hcur, hseen] at hold
            push_cast at hgt
            omega
          · rw [h1, hcur, hseen] at hlast
            omega
        · have := (createFrame_mem _ _ _ t1 hc).1
          have := hlt n
          omega
      · have hnone := hgone (not_le.mp hle1)
        rw [hstep] at ht1
        rcases (step_mem _ _ _ t1 ht1).1 with ⟨t0, ht0, hid0, _⟩ | hc
        · exact hnone t0 ht0 (hid0.symm.trans hid)
        · have := (createFrame_mem _ _ _ t1 hc).1
          have := hlt n
          omega

/-- C7. From the initial state, after any number of frames that each show
exactly one centre, always at the same position `p`: every live track still has
`framesTracked = 1`, is not confirmed and stands at `p`; `eelNumber` is 0; the
CSV file is empty.  After `n` such frames, `1 ≤ n ≤ MAX_FRAMES_MISSED + 1`, the
track made on the first frame is live, as it was made; with a positive frame
width it is the only live track. -/
theorem C7_static_object_never_confirmed (frameWidth : ℚ) (p : Point2f) (fs : List FrameInput)
    (hfs : ∀ f ∈ fs, f.currentCenters = [p]) :
    (∀ t ∈ (run frameWidth fs).tracks,
      t.framesTracked = 1 ∧ t.eel_detected = false ∧ t.position = p) ∧
    (run frameWidth fs).eelNumber = 0 ∧
    (run frameWidth fs).csv_file = [] ∧
    (1 ≤ fs.length → (fs.length : Int) ≤ MAX_FRAMES_MISSED + 1 →
      ({ id := 1, position := p, framesTracked := 1, lastFrameSeen := 1, eel_detected := false }
        : Track) ∈ (run frameWidth fs).tracks) ∧
    (0 < frameWidth → 1 ≤ fs.length → (fs.length : Int) ≤ MAX_FRAMES_MISSED + 1 →
      (run frameWidth fs).tracks =
        [{ id := 1, position := p, framesTracked := 1, lastFrameSeen := 1
           eel_detected := false }]) := by
  obtain ⟨h1, h2, h3⟩ := still_run frameWidth p fs hfs
  refine ⟨h1, h2, h3, ?_, ?_⟩
  · induction fs using List.reverseRecOn with
    | nil => intro h; simp at h
    | append_singleton fs f ih =>
      intro _ hlen
      have hfs1 : ∀ g ∈ fs, g.currentCenters = [p] := fun g hg => hfs g (by simp [hg])
      have hstill := still_run frameWidth p fs hfs1
      by_cases hnil : fs = []
      · subst hnil
        rw [List.nil_append, (still_first_frame frameWidth p f (hfs f (by simp))).1]
        simp
      · have hpos : 1 ≤ fs.length := List.length_pos.mpr hnil
        simp only [List.length_append, List.length_singleton, MAX_FRAMES_MISSED] at hlen
        push_cast at hlen
        have hmem := ih hfs1 hstill.1 hstill.2.1 hstill.2.2 hpos
          (by simp only [MAX_FRAMES_MISSED]; omega)
        rw [run_snoc]
        simp only [step, mem_pruneTracks, List.mem_append]
        refine ⟨Or.inl ?_, ?_⟩
        · rw [(still_step frameWidth p _ f (hfs f (by simp)) hstill.1).2.2.2]
          exact hmem
        · rw [run_currentFrame]
          simp only [MAX_FRAMES_MISSED]
          omega
  · intro hW
    induction fs using List.reverseRecOn with
    | nil => intro h; simp at h
    | append_singleton fs f ih =>
      intro _ hlen
      have hfs1 : ∀ g ∈ fs, g.currentCenters = [p] := fun g hg => hfs g (by simp [hg])
      have hstill := still_run frameWidth p fs hfs1
      by_cases hnil : fs = []
      · subst hnil
        rw [List.nil_append, (still_first_frame frameWidth p f (hfs f (by simp))).1]
      · have hpos : 1 ≤ fs.length := List.length_pos.mpr hnil
        simp only [List.length_append, List.length_singleton, MAX_FRAMES_MISSED] at hlen
        push_cast at hlen
        have htr := ih hfs1 hstill.1 hstill.2.1 hstill.2.2 hpos
          (by simp only [MAX_FRAMES_MISSED]; omega)
        rw [run_snoc]
        apply still_step_alone frameWidth hW p _ f (hfs f (by simp)) _ rfl htr
        rw [run_currentFrame]
        simp only [MAX_FRAMES_MISSED]
        omega

/-- C1 at a concrete run: the track made on frame 1 is pruned after 51 empty
frames; the track made on frame 53 gets the id 2 and no live track carries the
id 1 again. -/
theorem C1_witness :
    (run 400 ((sampleFrame [⟨100, 100⟩] :: List.replicate 51 (sampleFrame [])) ++
        [sampleFrame [⟨100, 100⟩]])).tracks =
        [{ id := 2, position := ⟨100, 100⟩, framesTracked := 1, lastFrameSeen := 53
           eel_detected := false }] ∧
      ∀ t ∈ (run 400 ((sampleFrame [⟨100, 100⟩] :: List.replicate 51 (sampleFrame [])) ++
        [sampleFrame [⟨100, 100⟩]])).tracks, t.id ≠ 1 :=
  ⟨by decide!,
    (C1_ids_unique_increasing_never_reused 400
      (sampleFrame [⟨100, 100⟩] :: List.replicate 51 (sampleFrame []))).2.2.2.2
      [sampleFrame [⟨100, 100⟩]] 1 (by decide!) (by decide!)⟩

/-- C2 at a concrete run: the track confirmed on the sixth frame of the swimming
scene is still confirmed two frames later. -/
theorem C2_witness :
    (run 400 (swimmingFrames 0 6)).tracks[0]? =
        some { id := 1, position := ⟨100, 115⟩, framesTracked := 6, lastFrameSeen := 6
               eel_detected := true } ∧
      ({ id := 1, position := ⟨100, 121⟩, framesTracked := 8, lastFrameSeen := 8
         eel_detected := true } : Track) ∈
        (run 400 (swimmingFrames 0 6 ++ swimmingFrames 6 2)).tracks ∧
      ({ id := 1, position := ⟨100, 121⟩, framesTracked := 8, lastFrameSeen := 8
         eel_detected := true } : Track).eel_detected = true :=
  ⟨by decide!, by decide!,
    (C2_eel_detected_never_reset 400 (swimmingFrames 0 6) (swimmingFrames 6 2) 0
      { id := 1, position := ⟨100, 115⟩, framesTracked := 6, lastFrameSeen := 6
        eel_detected := true }
      { id := 1, position := ⟨100, 121⟩, framesTracked := 8, lastFrameSeen := 8
        eel_detected := true }
      (by decide!) rfl (by decide!) rfl).1⟩

/-- C3 at a concrete run: a track made on the first frame and followed by empty
frames is live after frame 51 and gone after frame 52. -/
theorem C3_witness :
    ({ id := 1, position := ⟨100, 100⟩, framesTracked := 1, lastFrameSeen := 1
       eel_detected := false } : Track) ∈
        (run 400 ([] ++ sampleFrame [⟨100, 100⟩] ::
          (List.replicate 51 (sampleFrame [])).take 50)).tracks ∧
      ∀ t1 ∈ (run 400 ([] ++ sampleFrame [⟨100, 100⟩] ::
          (List.replicate 51 (sampleFrame [])).take 51)).tracks,
        t1.id ≠ (1 : Int) := by
  have h := C3_unseen_track_pruned_after_51_frames 400 [] (sampleFrame [⟨100, 100⟩])
    (List.replicate 51 (sampleFrame []))
    { id := 1, position := ⟨100, 100⟩, framesTracked := 1, lastFrameSeen := 1
      eel_detected := false } (by decide!) (by decide!)
  exact ⟨(h 50 (by decide)).2.1 (by decide), (h 51 (by decide)).2.2 (by decide)⟩

/-- C7 at a concrete run: six frames with one centre at (100, 100). -/
theorem C7_witness :
    (run 400 (List.replicate 6 (sampleFrame [⟨100, 100⟩]))).tracks =
        [{ id := 1, position := ⟨100, 100⟩, framesTracked := 1, lastFrameSeen := 1
           eel_detected := false }] ∧
      (run 400 (List.replicate 6 (sampleFrame [⟨100, 100⟩]))).eelNumber = 0 ∧
      (run 400 (List.replicate 6 (sampleFrame [⟨100, 100⟩]))).csv_file = [] := by
  have h := C7_static_object_never_confirmed 400 ⟨100, 100⟩
    (List.replicate 6 (sampleFrame [⟨100, 100⟩]))
    (by intro f hf; rw [List.eq_of_mem_replicate hf]; rfl)
  exact ⟨h.2.2.2.2 (by norm_num) (by decide) (by decide), h.2.1, h.2.2.1⟩

end EelTracking
